import Mathlib

/-!
Verification of the segmentdb storage core (WAL, memtable, SSTable).

Shallow embedding conventions:
- Python `bytes` values are `List Nat` (each element a byte value).
- Machine integers are `Nat`; where Python's `struct` rejects an
  out-of-range argument the embedded serializer returns `.error`.
- Fallible Python code (functions that may `raise`) returns
  `Except String _`; the error strings abbreviate the Python messages.
- LZ4 block compression is an external, swappable collaborator; it is
  modelled by an abstract `Codec` (spec: "block compression [is a]
  swappable implementation"), and the xxh32 block checksum by an
  abstract checksum function `List Nat → Nat`.
-/

namespace SegmentDB

/-- Big-endian serialization of `x` into `n` bytes (as done by Python
`struct.pack` formats `>H`, `>I`, `>Q` for n = 2, 4, 8). -/
def beBytes : Nat → Nat → List Nat
  | 0, _ => []
  | n + 1, x => beBytes n (x / 256) ++ [x % 256]

/-- Big-endian deserialization of a byte list (Python `struct.unpack`). -/
def beDecode (l : List Nat) : Nat :=
  l.foldl (fun acc b => acc * 256 + b) 0

/-! ## CRC32 (zlib.crc32): reflected polynomial 0xEDB88320,
initial value 0xFFFFFFFF, final xor 0xFFFFFFFF. -/

def crcPoly : Nat := 0xEDB88320

/-- One bit-iteration of the reflected CRC32 update. -/
def crcBitStep (s : Nat) : Nat :=
  if s % 2 = 1 then (s / 2) ^^^ crcPoly else s / 2

/-- `n` bit-iterations. -/
def crcBits : Nat → Nat → Nat
  | 0, s => s
  | n + 1, s => crcBits n (crcBitStep s)

/-- Absorb one byte into the CRC state. -/
def crcByteStep (s b : Nat) : Nat := crcBits 8 (s ^^^ b)

/-- `zlib.crc32(data) & 0xFFFFFFFF`. -/
def crc32 (data : List Nat) : Nat :=
  (data.foldl crcByteStep 0xFFFFFFFF) ^^^ 0xFFFFFFFF

/-! ## WAL entry (src/segmentdb/storage/wal/WALEntry.py) -/

inductive OperationType where
  | PUT
  | DELETE
deriving DecidableEq, Repr

/-- `OperationType.value` in the Python `Enum`. -/
def OperationType.value : OperationType → Nat
  | .PUT => 1
  | .DELETE => 2

/-- `OperationType(v)` construction: fails for values other than 1, 2. -/
def OperationType.ofValue : Nat → Except String OperationType
  | 1 => .ok .PUT
  | 2 => .ok .DELETE
  | _ => .error "ValueError: not a valid OperationType"

structure WALEntry where
  seq_no : Nat
  op_type : OperationType
  key : List Nat
  value : Option (List Nat) := none
deriving DecidableEq, Repr

namespace WALEntry

/-- `len(self.value) if self.value else 0`: `None` and `b""` are both
falsy, so both yield 0 (and `self.value or b""` packs `b""`). -/
def valLen (e : WALEntry) : Nat := (e.value.getD []).length

/-- The packed payload `>QBHI{key_len}s{val_len}s` (fields only, no
length word and no CRC), as built inside `WALEntry.to_bytes`. -/
def packedPayload (e : WALEntry) : List Nat :=
  beBytes 8 e.seq_no ++ [e.op_type.value] ++ beBytes 2 e.key.length ++
    beBytes 4 e.valLen ++ e.key ++ e.value.getD []

/-- The full frame `length(4) ‖ payload ‖ crc32(4)` for an in-range
entry, as returned by a successful `WALEntry.to_bytes`. -/
def packedFrame (e : WALEntry) : List Nat :=
  beBytes 4 (e.packedPayload.length + 4) ++ e.packedPayload ++
    beBytes 4 (crc32 e.packedPayload)

/-- `WALEntry.to_bytes`. `struct.pack` raises `struct.error` when a
field does not fit its format (`>Q` u64, `>H` u16, `>I` u32); the
length word `entry_length` is itself packed with `>I`. -/
def to_bytes (e : WALEntry) : Except String (List Nat) :=
  if 2 ^ 64 ≤ e.seq_no ∨ 2 ^ 16 ≤ e.key.length ∨ 2 ^ 32 ≤ e.valLen then
    .error "struct.error"
  else if 2 ^ 32 ≤ e.packedPayload.length + 4 then
    .error "struct.error"
  else
    .ok e.packedFrame

/-- The field-unpacking stage of `WALEntry.from_bytes` (source lines
101-117): `struct.unpack(">QBHI", payload[:15])` — which needs exactly
15 bytes — then the variable-length key and value slices (Python
slicing clamps). -/
def parsePayloadFields (payload : List Nat) : Except String WALEntry :=
  if payload.length < 15 then .error "struct.error" else
  let seq_no := beDecode (payload.take 8)
  let opVal := payload.getD 8 0
  let key_len := beDecode ((payload.drop 9).take 2)
  let val_len := beDecode ((payload.drop 11).take 4)
  let key := (payload.drop 15).take key_len
  let value := if 0 < val_len
    then some ((payload.drop (15 + key_len)).take val_len)
    else none
  match OperationType.ofValue opVal with
  | .error s => .error s
  | .ok op => .ok ⟨seq_no, op, key, value⟩

/-- `WALEntry.from_bytes`: parse `length(4) ‖ payload ‖ crc32(4)`,
verify the CRC32, then unpack the payload fields. Slices follow
Python's clamping slice semantics; each `struct.unpack` demands an
exactly-sized buffer and fails with `struct.error` otherwise. -/
def from_bytes (data : List Nat) : Except String WALEntry :=
  if data.length < 4 then .error "struct.error" else
  let entryLength := beDecode (data.take 4)
  if data.length < 4 + entryLength then .error "Insufficient data" else
  let chunk := (data.drop 4).take entryLength
  -- `struct.unpack(">I", entry_chunk[-4:])` needs exactly 4 bytes
  if chunk.length < 4 then .error "struct.error" else
  let payload := chunk.take (chunk.length - 4)
  let storedCrc32 := beDecode (chunk.drop (chunk.length - 4))
  if crc32 payload ≠ storedCrc32 then .error "CRC32 mismatch" else
  parsePayloadFields payload

end WALEntry

/-! ## WAL header and reader (WALHeader.py, WALReader.py) -/

structure WALHeader where
  version : Nat := 1
  timestamp : Nat := 0
deriving DecidableEq, Repr

namespace WALHeader

/-- The 32-byte header `>4sIQ16s`: magic `WALX`, version, timestamp,
16 reserved zero bytes (embedded for in-range fields). -/
def packed (h : WALHeader) : List Nat :=
  [87, 65, 76, 88] ++ beBytes 4 h.version ++ beBytes 8 h.timestamp ++
    List.replicate 16 0

/-- `WALHeader.from_bytes`: unpack `>4sIQ16s` (exactly 32 bytes),
check the magic and that the version is non-zero. -/
def from_bytes (data : List Nat) : Except String WALHeader :=
  if data.length ≠ 32 then .error "struct.error" else
  if data.take 4 ≠ [87, 65, 76, 88] then .error "Invalid WAL file" else
  let version := beDecode ((data.drop 4).take 4)
  if version = 0 then .error "Invalid WAL version" else
  .ok ⟨version, beDecode ((data.drop 8).take 8)⟩

end WALHeader

namespace WALReader

/-- The loop of `WALReader.__next__` / `_read_entry` over a whole file:
read a 4-byte length word, then that many bytes, and hand the chunk
(payload ‖ crc, *without* the length word) to `WALEntry.from_bytes`;
EOF exactly on a length boundary ends iteration, a short read raises.
`fuel` only bounds the iteration count; each iteration consumes at
least 4 bytes, so `file.length + 1` iterations never run out. -/
def readLoop (file : List Nat) : Nat → Nat → Except String (List WALEntry)
  | 0, _ => .error "unreachable: iteration fuel exhausted"
  | fuel + 1, pos =>
    let lengthData := (file.drop pos).take 4
    if lengthData.length = 0 then .ok []
    else if lengthData.length < 4 then
      .error "Truncated entry: incomplete length field"
    else
      let entryLength := beDecode lengthData
      let chunk := (file.drop (pos + 4)).take entryLength
      if chunk.length < entryLength then .error "Truncated entry"
      else
        match WALEntry.from_bytes chunk with
        | .error s => .error s
        | .ok e =>
          match readLoop file fuel (pos + 4 + entryLength) with
          | .error s => .error s
          | .ok es => .ok (e :: es)

/-- Construct a `WALReader` on `file` and drain the iterator: validate
the 32-byte header, then read entries until EOF or error. -/
def readAll (file : List Nat) : Except String (List WALEntry) :=
  let hdr := file.take 32
  if hdr.length < 32 then .error "Truncated WAL file" else
  match WALHeader.from_bytes hdr with
  | .error s => .error s
  | .ok _ => readLoop file (file.length + 1) 32

end WALReader

/-! ## Memtable (src/segmentdb/storage/memtable/Memtable.py)

The `SortedDict` mutable store is embedded as an association list with
at most one binding per key (`storeGet` finds the binding, `storeSet`
replaces it in place or appends); the claims settled here do not
depend on the dict's internal key ordering.  The `deque` of
`FlushTask | None` is a `List (Option FlushTask)` appended on the
right, so Python's `reversed(...)` is `List.reverse` (newest first).
Python's unbounded signed `int` size accounting is an `Int`. -/

structure MemtableEntry where
  seq_no : Nat
  value : Option (List Nat) := none
deriving DecidableEq, Repr

namespace MemtableEntry

/-- `8 + (len(self.value) if self.value else 0)`: `None` and `b""` are
both falsy and contribute 0. -/
def size_bytes (e : MemtableEntry) : Nat := 8 + (e.value.getD []).length

end MemtableEntry

abbrev Store := List (List Nat × MemtableEntry)

/-- Dict lookup: the binding for `key`, if any. -/
def storeGet : Store → List Nat → Option MemtableEntry
  | [], _ => none
  | (k, e) :: rest, key => if k = key then some e else storeGet rest key

/-- Dict assignment `store[key] = entry`: replace the existing binding
in place, or add a new one. -/
def storeSet : Store → List Nat → MemtableEntry → Store
  | [], key, entry => [(key, entry)]
  | (k, e) :: rest, key, entry =>
    if k = key then (k, entry) :: rest
    else (k, e) :: storeSet rest key entry

/-- Sum of `len(key) + entry.size_bytes` over the bindings of a store:
the quantity `Memtable._size_bytes` is meant to track. -/
def storeSize (s : Store) : Nat :=
  (s.map (fun p => p.1.length + p.2.size_bytes)).sum

structure FlushTask where
  store : Store
  checkpoint_seq_no : Nat
deriving DecidableEq, Repr

structure MemtableState where
  store : Store
  size_bytes : Int
  immutables : List (Option FlushTask)
deriving DecidableEq, Repr

namespace Memtable

def MAX_SIZE_BYTES : Nat := 4 * 1024 * 1024

/-- Fresh memtable built by `Memtable.__init__`. -/
def init : MemtableState := ⟨[], 0, []⟩

/-- `Memtable._set` (the body of both `put` and `delete`): subtract a
replaced binding's contribution, insert, add the new contribution,
then — inside the same critical section — rotate if the post-insert
size reached `MAX_SIZE_BYTES`, enqueueing a `FlushTask` whose
`checkpoint_seq_no` is the inserted entry's `seq_no`. -/
def mset (st : MemtableState) (key : List Nat) (entry : MemtableEntry) :
    MemtableState :=
  let sizeAfterSub : Int :=
    match storeGet st.store key with
    | some old => st.size_bytes - (key.length + old.size_bytes : Nat)
    | none => st.size_bytes
  let store' := storeSet st.store key entry
  let size' := sizeAfterSub + (key.length + entry.size_bytes : Nat)
  if (MAX_SIZE_BYTES : Int) ≤ size' then
    ⟨[], 0, st.immutables ++ [some ⟨store', entry.seq_no⟩]⟩
  else
    ⟨store', size', st.immutables⟩

/-- Scan of `reversed(self._immutable_stores)` in `Memtable.get`:
first hit wins, `None` sentinels are skipped. -/
def scanTasks : List (Option FlushTask) → List Nat → Option MemtableEntry
  | [], _ => none
  | none :: rest, key => scanTasks rest key
  | some t :: rest, key =>
    match storeGet t.store key with
    | some e => some e
    | none => scanTasks rest key

/-- `Memtable.get`: mutable store first, then the immutable queue
newest → oldest. -/
def get (st : MemtableState) (key : List Nat) : Option MemtableEntry :=
  match storeGet st.store key with
  | some e => some e
  | none => scanTasks st.immutables.reverse key

/-- A sequence of `put`/`delete` calls (both are `_set`). -/
def applyOps (st : MemtableState) (ops : List (List Nat × MemtableEntry)) :
    MemtableState :=
  ops.foldl (fun s op => mset s op.1 op.2) st

end Memtable

/-! ## SSTable models (src/segmentdb/storage/sstable/models.py) -/

/-- Abstract block compression collaborator (`lz4.block` in the
source; the spec fixes only its externally-observable semantics:
"compression [is a] swappable implementation ... provided
decompression is deterministic").  `decompress` receives the recorded
uncompressed size and may fail on foreign input. -/
structure Codec where
  compress : List Nat → List Nat
  decompress : List Nat → Nat → Except String (List Nat)

/-- Deterministic lossless decompression of own output. -/
def Codec.Lossless (c : Codec) : Prop :=
  ∀ x : List Nat, c.decompress (c.compress x) x.length = .ok x

/-- The identity codec (for concrete instantiations). -/
def idCodec : Codec := ⟨fun x => x, fun d _ => .ok d⟩

/-- Abstract per-block checksum (`xxhash.xxh32(...).intdigest()`). -/
abbrev ChecksumFn := List Nat → Nat

structure SSTableEntry where
  key : List Nat
  value : Option (List Nat)
  seq_no : Nat
deriving DecidableEq, Repr, Inhabited

namespace SSTableEntry

/-- `len(self.value) if self.value is not None else 0`. -/
def valLen (e : SSTableEntry) : Nat := (e.value.getD []).length

/-- `1 if self.value is None else 0`. -/
def tombstoneFlag (e : SSTableEntry) : Nat :=
  match e.value with
  | none => 1
  | some _ => 0

/-- `SSTableEntry.bytes_size`: 4-byte length word + 15-byte fixed
header + key + value. -/
def bytes_size (e : SSTableEntry) : Nat := 4 + 15 + e.key.length + e.valLen

/-- The packed payload `>QHIB{key_len}s{val_len}s`. -/
def packedPayload (e : SSTableEntry) : List Nat :=
  beBytes 8 e.seq_no ++ beBytes 2 e.key.length ++ beBytes 4 e.valLen ++
    [e.tombstoneFlag] ++ e.key ++ e.value.getD []

/-- `length(4) ‖ payload` as returned by a successful
`SSTableEntry.to_bytes`. -/
def packedWire (e : SSTableEntry) : List Nat :=
  beBytes 4 e.packedPayload.length ++ e.packedPayload

/-- The ranges under which every `struct.pack` field of
`SSTableEntry.to_bytes` fits its format. -/
def InRange (e : SSTableEntry) : Prop :=
  e.seq_no < 2 ^ 64 ∧ e.key.length < 2 ^ 16 ∧
    15 + e.key.length + e.valLen < 2 ^ 32

instance (e : SSTableEntry) : Decidable e.InRange := by
  unfold InRange; infer_instance

/-- `SSTableEntry.to_bytes`. -/
def to_bytes (e : SSTableEntry) : Except String (List Nat) :=
  if 2 ^ 64 ≤ e.seq_no ∨ 2 ^ 16 ≤ e.key.length ∨ 2 ^ 32 ≤ e.valLen then
    .error "struct.error"
  else if 2 ^ 32 ≤ e.packedPayload.length then .error "struct.error"
  else .ok e.packedWire

/-- `SSTableEntry.from_bytes` (input includes the 4-byte length
word). -/
def from_bytes (data : List Nat) : Except String SSTableEntry :=
  if data.length < 4 then .error "struct.error" else
  let entryLength := beDecode (data.take 4)
  let payload := (data.drop 4).take entryLength
  -- `struct.unpack(">QHIB", payload[:15])` needs exactly 15 bytes
  if payload.length < 15 then .error "struct.error" else
  let seq_no := beDecode (payload.take 8)
  let key_len := beDecode ((payload.drop 8).take 2)
  let val_len := beDecode ((payload.drop 10).take 4)
  let flag := payload.getD 14 0
  let key := (payload.drop 15).take key_len
  let value := if flag ≠ 0 then none
    else some ((payload.drop (15 + key_len)).take val_len)
  .ok ⟨key, value, seq_no⟩

end SSTableEntry

structure Block where
  data : List Nat
  uncompressed_size : Nat
deriving DecidableEq, Repr

namespace Block

/-- `Block.size`: header (8) + compressed data + checksum (4). -/
def size (b : Block) : Nat := 8 + b.data.length + 4

/-- `Block.from_entries`: serialize and concatenate the entries, then
compress.  Fails on an empty list or when an entry does not pack. -/
def from_entries (c : Codec) (entries : List SSTableEntry) :
    Except String Block :=
  if entries = [] then
    .error "Cannot create block from empty entries list"
  else
    match entries.mapM SSTableEntry.to_bytes with
    | .error s => .error s
    | .ok parts =>
      let raw := parts.flatten
      .ok ⟨c.compress raw, raw.length⟩

/-- The loop of `Block.iter_entries` over the decompressed bytes: read
a 4-byte length word at `pos`, slice `4 + entry_length` bytes, parse
them with `SSTableEntry.from_bytes`, advance.  `fuel` only bounds the
iteration count (each iteration advances `pos` by at least 4). -/
def parseLoop : Nat → List Nat → Except String (List SSTableEntry)
  | 0, _ => .error "unreachable: iteration fuel exhausted"
  | _ + 1, [] => .ok []
  | fuel + 1, data =>
    if data.length < 4 then .error "struct.error" else
    let entryLength := beDecode (data.take 4)
    let entrySize := 4 + entryLength
    match SSTableEntry.from_bytes (data.take entrySize) with
    | .error s => .error s
    | .ok e =>
      match parseLoop fuel (data.drop entrySize) with
      | .error s => .error s
      | .ok es => .ok (e :: es)

/-- `Block.decompress`. -/
def decompress (c : Codec) (b : Block) : Except String (List Nat) :=
  c.decompress b.data b.uncompressed_size

/-- `Block.iter_entries`, drained to a list. -/
def iter_entries (c : Codec) (b : Block) :
    Except String (List SSTableEntry) :=
  match decompress c b with
  | .error s => .error s
  | .ok raw => parseLoop (raw.length + 1) raw

/-- `Block.to_bytes`: `comp_size(4) ‖ uncomp_size(4) ‖ data ‖
checksum(4)` with the checksum over header ‖ data. -/
def to_bytes (cs : ChecksumFn) (b : Block) : List Nat :=
  let header := beBytes 4 b.data.length ++ beBytes 4 b.uncompressed_size
  header ++ b.data ++ beBytes 4 (cs (header ++ b.data))

end Block

structure SparseIndexEntry where
  key : List Nat
  offset : Nat
deriving DecidableEq, Repr, Inhabited

structure SparseIndex where
  entries : List SparseIndexEntry
deriving DecidableEq, Repr

/-- Python `bytes` comparison: lexicographic over unsigned byte
values (`a < b`). -/
def keyLt : List Nat → List Nat → Bool
  | [], [] => false
  | [], _ :: _ => true
  | _ :: _, [] => false
  | a :: as_, b :: bs =>
    if a < b then true else if b < a then false else keyLt as_ bs

/-- `bisect.bisect_right(a, x)`: binary search on `[lo, hi)` using
`x < a[mid]`.  `fuel` only bounds the iteration count (the interval
shrinks every step). -/
def bisectRightAux (a : List (List Nat)) (x : List Nat) :
    Nat → Nat → Nat → Nat
  | 0, lo, _ => lo
  | fuel + 1, lo, hi =>
    if lo < hi then
      let mid := (lo + hi) / 2
      if keyLt x (a.getD mid []) then bisectRightAux a x fuel lo mid
      else bisectRightAux a x fuel (mid + 1) hi
    else lo

def bisectRight (a : List (List Nat)) (x : List Nat) : Nat :=
  bisectRightAux a x (a.length + 1) 0 a.length

namespace SparseIndex

/-- `SparseIndex.find_block_offset`: offset of the block whose first
key is the largest indexed key ≤ `key`, or `None`. -/
def find_block_offset (idx : SparseIndex) (key : List Nat) : Option Nat :=
  if idx.entries = [] then none else
  let keys := idx.entries.map (·.key)
  let i := bisectRight keys key
  if i = 0 then none
  else some ((idx.entries.getD (i - 1) default).offset)

end SparseIndex

/-! ## SSTable reader (SSTableReader.py) -/

namespace SSTableReader

/-- `SSTableReader._read_exact` on an in-memory file at `pos`. -/
def read_exact (file : List Nat) (pos n : Nat) : Except String (List Nat) :=
  let r := (file.drop pos).take n
  if r.length < n then .error "Unexpected end of file" else .ok r

/-- `SSTableReader.get`, with the bloom filter abstracted to its
membership predicate.  After the checksum verifies, the source runs
`for entry in block:` — but `Block` (a `slots` dataclass) defines
neither `__iter__` nor `__getitem__`, so Python raises `TypeError`
before any entry is scanned; the embedding reproduces that. -/
def get (cs : ChecksumFn) (bloom : List Nat → Bool) (index : SparseIndex)
    (file : List Nat) (key : List Nat) :
    Except String (Option (List Nat)) :=
  if ¬ bloom key then .ok none else
  match index.find_block_offset key with
  | none => .ok none
  | some offset =>
    match read_exact file offset 8 with
    | .error s => .error s
    | .ok header =>
      let compressed_size := beDecode (header.take 4)
      match read_exact file (offset + 8) compressed_size with
      | .error s => .error s
      | .ok compressed_data =>
        match read_exact file (offset + 8 + compressed_size) 4 with
        | .error s => .error s
        | .ok checksumBytes =>
          let stored_checksum := beDecode checksumBytes
          let computed_checksum := cs (header ++ compressed_data)
          if stored_checksum ≠ computed_checksum then
            .error "Block checksum mismatch"
          else
            .error "TypeError: 'Block' object is not iterable"

end SSTableReader

/-! ## SSTable writer (SSTableWriter.py) -/

namespace SSTableWriter

def BLOCK_SIZE : Nat := 4 * 1024

/-- `SSTableEntry(k, v.value, v.seq_no)` built from one store item. -/
def mkEntry (p : List Nat × MemtableEntry) : SSTableEntry :=
  ⟨p.1, p.2.value, p.2.seq_no⟩

structure BuildAcc where
  buf : List SSTableEntry
  blocks : List Block
  index : List SparseIndexEntry
  currSize : Nat
  offset : Nat
  total : Nat

/-- The loop of `SSTableWriter._build_blocks_and_index` over
`store.items()`: append the entry to the buffer, and once the
accumulated uncompressed size reaches `BLOCK_SIZE`, flush the buffer
as a block, recording `(first_key, offset)` in the index; a final
partial buffer is flushed unconditionally. -/
def buildLoop (c : Codec) :
    List (List Nat × MemtableEntry) → BuildAcc →
      Except String (List Block × List SparseIndexEntry × Nat)
  | [], acc =>
    if acc.buf = [] then .ok (acc.blocks, acc.index, acc.total)
    else
      match Block.from_entries c acc.buf with
      | .error s => .error s
      | .ok b =>
        .ok (acc.blocks ++ [b],
          acc.index ++ [⟨((acc.buf.headD default).key), acc.offset⟩],
          acc.total + acc.buf.length)
  | p :: rest, acc =>
    let e := mkEntry p
    let buf' := acc.buf ++ [e]
    let currSize' := acc.currSize + e.bytes_size
    if BLOCK_SIZE ≤ currSize' then
      match Block.from_entries c buf' with
      | .error s => .error s
      | .ok b =>
        buildLoop c rest
          ⟨[], acc.blocks ++ [b],
            acc.index ++ [⟨((buf'.headD default).key), acc.offset⟩],
            0, acc.offset + b.size, acc.total + buf'.length⟩
    else
      buildLoop c rest ⟨buf', acc.blocks, acc.index, currSize', acc.offset,
        acc.total⟩

/-- `SSTableWriter._build_blocks_and_index`: the data section starts
right after the 17-byte `SSTableHeader`. -/
def build_blocks_and_index (c : Codec)
    (items : List (List Nat × MemtableEntry)) :
    Except String (List Block × List SparseIndexEntry × Nat) :=
  buildLoop c items ⟨[], [], [], 0, 17, 0⟩

end SSTableWriter

/-! ## Spec-side partition function (for the refinement claim about
block partitioning).

Modelled from the spec: "iterate entries in sorted order; accumulate
into a buffer; when the *uncompressed* accumulated size reaches the
block threshold (default 4 KiB), finalize the block.  A final partial
block is flushed unconditionally." -/

def chunkAux (threshold : Nat) :
    List SSTableEntry → List SSTableEntry → Nat → List (List SSTableEntry)
  | [], buf, _ => if buf = [] then [] else [buf]
  | e :: rest, buf, curr =>
    let curr' := curr + e.bytes_size
    if threshold ≤ curr' then (buf ++ [e]) :: chunkAux threshold rest [] 0
    else chunkAux threshold rest (buf ++ [e]) curr'

/-- Greedy partition of an entry sequence into blocks of accumulated
uncompressed size reaching `threshold`, final partial group kept. -/
def chunkGreedy (threshold : Nat) (es : List SSTableEntry) :
    List (List SSTableEntry) :=
  chunkAux threshold es [] 0

/-! ## Further statement-level definitions (spec side / concrete
instances used by individual theorems) -/

/-- The entry that `WALEntry.from_bytes` reconstructs from a frame of
`e`: since `to_bytes` writes `val_len = 0` for both `None` and the
falsy `b""`, a zero-length value reads back as `None`. -/
def WALEntry.normalized (e : WALEntry) : WALEntry :=
  { e with value := if e.valLen = 0 then none else e.value }

namespace SSTableWriter

/-- Concatenated wire form of a group of entries (the `raw_data` of
`Block.from_entries`). -/
def serializeAll (g : List SSTableEntry) : List Nat :=
  (g.map SSTableEntry.packedWire).flatten

/-- The block that a successful `Block.from_entries c g` returns. -/
def blockOf (c : Codec) (g : List SSTableEntry) : Block :=
  ⟨c.compress (serializeAll g), (serializeAll g).length⟩

/-- Accumulated `bytes_size` of a buffer (the quantity `curr_size`
tracks in `_build_blocks_and_index`). -/
def entriesSize (g : List SSTableEntry) : Nat :=
  (g.map SSTableEntry.bytes_size).sum

/-- The sparse index that flushing `gs` starting at byte offset `off`
produces: one `(first_key, offset)` entry per group, offsets advancing
by each block's on-disk size. -/
def idxOf (c : Codec) : List (List SSTableEntry) → Nat → List SparseIndexEntry
  | [], _ => []
  | g :: rest, off =>
    ⟨(g.headD default).key, off⟩ ::
      idxOf c rest (off + (blockOf c g).size)

end SSTableWriter

/-! Concrete inputs for the evaluation theorems and witnesses. -/

def walDemoEntry : WALEntry := ⟨1, .PUT, [107], some [118]⟩

/-- A WAL file holding one complete, CRC-correct entry followed by a
2-byte truncated tail (EOF inside the next length field). -/
def walDemoFile : List Nat :=
  WALHeader.packed {} ++ ((WALEntry.to_bytes walDemoEntry).toOption.getD [])
    ++ [0, 0]

def wRtEntry : WALEntry := ⟨7, .PUT, [107], some []⟩

def wRtBytes : List Nat := (WALEntry.to_bytes wRtEntry).toOption.getD []

def wFlipEntry : WALEntry := ⟨42, .PUT, [107, 101, 121], some [118, 97, 108]⟩

def wFlipBytes : List Nat := (WALEntry.to_bytes wFlipEntry).toOption.getD []

/-- A concrete stand-in for the abstract block checksum function. -/
def demoChecksum : ChecksumFn := fun l => l.sum % 4294967296

def demoSSTEntry : SSTableEntry := ⟨[107], some [118], 1⟩

/-- A healthy one-block data section (as `SSTableReader.get` would
find at the indexed offset): the block holding `demoSSTEntry`,
serialized with a correct checksum. -/
def demoSSTFile : List Nat :=
  Block.to_bytes demoChecksum
    ⟨demoSSTEntry.packedWire, demoSSTEntry.packedWire.length⟩

def demoSparseIndex : SparseIndex := ⟨[⟨[107], 0⟩]⟩

/-- An entry whose 4 MiB value forces a rotation on insert. -/
def rotEntry : MemtableEntry :=
  ⟨5, some (List.replicate Memtable.MAX_SIZE_BYTES 0)⟩

/-- One put whose post-insert size reaches the 4 MiB threshold, so the
memtable rotates. -/
def rotOps : List (List Nat × MemtableEntry) := [([1], rotEntry)]

/-- The flush task that the rotation on `rotOps` enqueues. -/
def rotTask : FlushTask := ⟨[([1], rotEntry)], 5⟩

/-- A memtable state whose key 5 lives only in an immutable task. -/
def demoMemState : MemtableState :=
  ⟨[], 0, [some ⟨[([5], ⟨1, some [9]⟩)], 1⟩]⟩

def demoItems : List (List Nat × MemtableEntry) :=
  [([1], ⟨1, some [2]⟩), ([3], ⟨2, none⟩)]

def demoBlockEntries : List SSTableEntry :=
  [⟨[1], none, 1⟩, ⟨[2], some [], 2⟩, ⟨[3], some [9], 3⟩]

/-! # Theorems -/

/-! ## Byte-encoding lemmas -/

theorem beBytes_length (n x : Nat) : (beBytes n x).length = n := by
  induction n generalizing x with
  | zero => rfl
  | succ n ih => simp [beBytes, ih]

theorem beBytes_lt (n x : Nat) : ∀ b ∈ beBytes n x, b < 256 := by
  induction n generalizing x with
  | zero => simp [beBytes]
  | succ n ih =>
    intro b hb
    simp only [beBytes, List.mem_append, List.mem_singleton] at hb
    rcases hb with h | h
    · exact ih _ _ h
    · omega

theorem beDecode_beBytes (n x : Nat) (h : x < 256 ^ n) :
    beDecode (beBytes n x) = x := by
  induction n generalizing x with
  | zero =>
    interval_cases x
    rfl
  | succ n ih =>
    have hdiv : x / 256 < 256 ^ n := by
      rw [Nat.div_lt_iff_lt_mul (by norm_num)]
      calc x < 256 ^ (n + 1) := h
        _ = 256 ^ n * 256 := by ring
    have : beDecode (beBytes n (x / 256)) = x / 256 := ih _ hdiv
    simp only [beBytes, beDecode, List.foldl_append, List.foldl_cons,
      List.foldl_nil]
    simp only [beDecode] at this
    rw [this]
    omega

/-! ## CRC32 lemmas: the 32-bit state stays bounded, every update is
injective in the state, and a byte substitution changes the final
digest (the property behind "any single-byte corruption is caught"). -/

theorem xor_right_cancelN {x y p : Nat} (h : x ^^^ p = y ^^^ p) : x = y := by
  have h2 := congrArg (· ^^^ p) h
  simpa [Nat.xor_assoc] using h2

theorem xor_left_cancelN {p x y : Nat} (h : p ^^^ x = p ^^^ y) : x = y := by
  have h2 := congrArg (p ^^^ ·) h
  simpa [← Nat.xor_assoc] using h2

theorem crcPoly_lt : crcPoly < 2 ^ 32 := by decide

theorem crcBitStep_lt {s : Nat} (h : s < 2 ^ 32) : crcBitStep s < 2 ^ 32 := by
  unfold crcBitStep
  split
  · exact Nat.xor_lt_two_pow (lt_of_le_of_lt (Nat.div_le_self s 2) h) crcPoly_lt
  · exact lt_of_le_of_lt (Nat.div_le_self s 2) h

theorem crcBitStep_inj {s t : Nat} (hs : s < 2 ^ 32) (ht : t < 2 ^ 32)
    (h : crcBitStep s = crcBitStep t) : s = t := by
  have hs2 : s / 2 < 2 ^ 31 := by omega
  have ht2 : t / 2 < 2 ^ 31 := by omega
  have hsb : (s / 2).testBit 31 = false := Nat.testBit_lt_two_pow hs2
  have htb : (t / 2).testBit 31 = false := Nat.testBit_lt_two_pow ht2
  have hpb : crcPoly.testBit 31 = true := by decide
  unfold crcBitStep at h
  rcases Nat.mod_two_eq_zero_or_one s with h1 | h1 <;>
    rcases Nat.mod_two_eq_zero_or_one t with h2 | h2
  · rw [if_neg (by omega), if_neg (by omega)] at h
    omega
  · rw [if_neg (by omega), if_pos h2] at h
    have := congrArg (Nat.testBit · 31) h
    simp [Nat.testBit_xor, hsb, htb, hpb] at this
  · rw [if_pos h1, if_neg (by omega)] at h
    have := congrArg (Nat.testBit · 31) h
    simp [Nat.testBit_xor, hsb, htb, hpb] at this
  · rw [if_pos h1, if_pos h2] at h
    have := xor_right_cancelN h
    omega

theorem crcBits_lt (n : Nat) {s : Nat} (h : s < 2 ^ 32) :
    crcBits n s < 2 ^ 32 := by
  induction n generalizing s with
  | zero => exact h
  | succ n ih => exact ih (crcBitStep_lt h)

theorem crcBits_inj (n : Nat) {s t : Nat} (hs : s < 2 ^ 32)
    (ht : t < 2 ^ 32) (h : crcBits n s = crcBits n t) : s = t := by
  induction n generalizing s t with
  | zero => exact h
  | succ n ih =>
    exact crcBitStep_inj hs ht
      (ih (crcBitStep_lt hs) (crcBitStep_lt ht) h)

theorem crcByteStep_lt {s b : Nat} (hs : s < 2 ^ 32) (hb : b < 2 ^ 32) :
    crcByteStep s b < 2 ^ 32 :=
  crcBits_lt 8 (Nat.xor_lt_two_pow hs hb)

theorem crcByteStep_inj_state {s t b : Nat} (hs : s < 2 ^ 32)
    (ht : t < 2 ^ 32) (hb : b < 2 ^ 32)
    (h : crcByteStep s b = crcByteStep t b) : s = t :=
  xor_right_cancelN
    (crcBits_inj 8 (Nat.xor_lt_two_pow hs hb) (Nat.xor_lt_two_pow ht hb) h)

theorem crcByteStep_inj_byte {s b b' : Nat} (hs : s < 2 ^ 32)
    (hb : b < 2 ^ 32) (hb' : b' < 2 ^ 32) (hne : b ≠ b') :
    crcByteStep s b ≠ crcByteStep s b' := by
  intro h
  exact hne (xor_left_cancelN
    (crcBits_inj 8 (Nat.xor_lt_two_pow hs hb) (Nat.xor_lt_two_pow hs hb') h))

theorem foldl_crcByteStep_lt (l : List Nat) (hl : ∀ b ∈ l, b < 2 ^ 32)
    {s : Nat} (hs : s < 2 ^ 32) : l.foldl crcByteStep s < 2 ^ 32 := by
  induction l generalizing s with
  | nil => exact hs
  | cons b rest ih =>
    exact ih (fun x hx => hl x (List.mem_cons_of_mem b hx))
      (crcByteStep_lt hs (hl b (List.mem_cons_self b rest)))

theorem foldl_crcByteStep_ne (l : List Nat) (hl : ∀ b ∈ l, b < 2 ^ 32)
    {s t : Nat} (hs : s < 2 ^ 32) (ht : t < 2 ^ 32) (hne : s ≠ t) :
    l.foldl crcByteStep s ≠ l.foldl crcByteStep t := by
  induction l generalizing s t with
  | nil => exact hne
  | cons b rest ih =>
    have hb : b < 2 ^ 32 := hl b (List.mem_cons_self b rest)
    exact ih (fun x hx => hl x (List.mem_cons_of_mem b hx))
      (crcByteStep_lt hs hb) (crcByteStep_lt ht hb)
      (fun h => hne (crcByteStep_inj_state hs ht hb h))

theorem crc32_lt (l : List Nat) (hl : ∀ b ∈ l, b < 256) :
    crc32 l < 2 ^ 32 := by
  unfold crc32
  exact Nat.xor_lt_two_pow
    (foldl_crcByteStep_lt l (fun b hb => lt_trans (hl b hb) (by norm_num))
      (by norm_num))
    (by norm_num)

/-- Substituting a different byte value at any single position of a
byte string changes its CRC32. -/
theorem crc32_set_ne (p : List Nat) (hp : ∀ b ∈ p, b < 256) (i : Nat)
    (hi : i < p.length) (b' : Nat) (hb' : b' < 256)
    (hne : b' ≠ p.getD i 0) : crc32 (p.set i b') ≠ crc32 p := by
  have hsplit : p = p.take i ++ p[i] :: p.drop (i + 1) := by
    conv_lhs => rw [← List.take_append_drop i p]
    rw [List.drop_eq_getElem_cons hi]
  have hset : p.set i b' = p.take i ++ b' :: p.drop (i + 1) := by
    rw [List.set_eq_take_append_cons_drop, if_pos hi]
  have hgd : p.getD i 0 = p[i] := by
    simp [List.getD, List.getElem?_eq_getElem hi]
  have h256 : ∀ b ∈ p, b < 2 ^ 32 :=
    fun b hb => lt_trans (hp b hb) (by norm_num)
  have htake : ∀ b ∈ p.take i, b < 2 ^ 32 :=
    fun b hb => h256 b (List.mem_of_mem_take hb)
  have hdrop : ∀ b ∈ p.drop (i + 1), b < 2 ^ 32 :=
    fun b hb => h256 b (List.mem_of_mem_drop hb)
  have hpi : p[i] < 2 ^ 32 := h256 _ (List.getElem_mem hi)
  have hstate : (p.take i).foldl crcByteStep 0xFFFFFFFF < 2 ^ 32 :=
    foldl_crcByteStep_lt _ htake (by norm_num)
  unfold crc32
  intro h
  have h2 : (p.set i b').foldl crcByteStep 0xFFFFFFFF
      = p.foldl crcByteStep 0xFFFFFFFF := xor_right_cancelN h
  rw [hset] at h2
  conv_rhs at h2 => rw [hsplit]
  rw [List.foldl_append, List.foldl_append, List.foldl_cons,
    List.foldl_cons] at h2
  exact foldl_crcByteStep_ne _ hdrop
    (crcByteStep_lt hstate (lt_trans hb' (by norm_num)))
    (crcByteStep_lt hstate hpi)
    (crcByteStep_inj_byte hstate (lt_trans hb' (by norm_num)) hpi
      (by rw [hgd] at hne; exact hne)) h2

/-! ## WAL entry serialization lemmas -/

namespace WALEntry

theorem packedPayload_length (e : WALEntry) :
    e.packedPayload.length = 15 + e.key.length + e.valLen := by
  simp [packedPayload, beBytes_length, valLen]
  omega

theorem opValue_lt (op : OperationType) : op.value < 256 := by
  cases op <;> decide

theorem ofValue_value (op : OperationType) :
    OperationType.ofValue op.value = .ok op := by
  cases op <;> rfl

theorem packedPayload_bytes_lt (e : WALEntry)
    (hk : ∀ b ∈ e.key, b < 256) (hv : ∀ b ∈ e.value.getD [], b < 256) :
    ∀ b ∈ e.packedPayload, b < 256 := by
  intro b hb
  simp only [packedPayload, List.mem_append, List.mem_singleton] at hb
  rcases hb with ((((h | h) | h) | h) | h) | h
  · exact beBytes_lt 8 _ b h
  · exact h ▸ opValue_lt e.op_type
  · exact beBytes_lt 2 _ b h
  · exact beBytes_lt 4 _ b h
  · exact hk b h
  · exact hv b h

/-- The frame stage of `from_bytes` on a well-framed buffer: the
result only depends on whether the stored trailer matches the
payload's CRC32. -/
theorem from_bytes_split (P C : List Nat) (hC : C.length = 4)
    (hL : P.length + 4 < 2 ^ 32) :
    from_bytes (beBytes 4 (P.length + 4) ++ (P ++ C))
      = if crc32 P = beDecode C then parsePayloadFields P
        else .error "CRC32 mismatch" := by
  have hlen : (beBytes 4 (P.length + 4) ++ (P ++ C)).length
      = 4 + (P.length + 4) := by
    simp [beBytes_length, hC]
    try omega
  have htake : (beBytes 4 (P.length + 4) ++ (P ++ C)).take 4
      = beBytes 4 (P.length + 4) := List.take_left' (beBytes_length 4 _)
  have hdrop : (beBytes 4 (P.length + 4) ++ (P ++ C)).drop 4 = P ++ C :=
    List.drop_left' (beBytes_length 4 _)
  have hPClen : (P ++ C).length = P.length + 4 := by simp [hC]
  have hchunk : (P ++ C).take (P.length + 4) = P ++ C := by
    rw [← hPClen, List.take_length]
  have hpay : (P ++ C).take (P.length + 4 - 4) = P := by
    simp
  have hcrcb : (P ++ C).drop (P.length + 4 - 4) = C := by
    simp
  unfold from_bytes
  rw [if_neg (by omega)]
  simp only [htake, hdrop, beDecode_beBytes 4 _ hL]
  rw [if_neg (by omega)]
  simp only [hchunk, hPClen, hpay, hcrcb]
  rw [if_neg (by omega)]
  by_cases hcrc : crc32 P = beDecode C
  · rw [if_pos hcrc, if_neg (by omega)]
  · rw [if_neg hcrc, if_pos (by omega)]

theorem getD_append_exact (a b : List Nat) (d : Nat) :
    (a ++ b).getD a.length d = b.headD d := by
  induction a with
  | nil => cases b <;> simp [List.getD]
  | cons x xs ih => simpa using ih

/-- The payload stage on a payload packed by `to_bytes`. -/
theorem parsePayloadFields_packed (e : WALEntry)
    (hseq : e.seq_no < 2 ^ 64) (hklen : e.key.length < 2 ^ 16)
    (hvlen : e.valLen < 2 ^ 32) :
    parsePayloadFields e.packedPayload = .ok e.normalized := by
  have hlen := e.packedPayload_length
  have h8 : e.packedPayload.take 8 = beBytes 8 e.seq_no := by
    simp only [packedPayload, List.append_assoc]
    exact List.take_left' (beBytes_length 8 _)
  have hP9 : e.packedPayload
      = (beBytes 8 e.seq_no ++ [e.op_type.value]) ++
        (beBytes 2 e.key.length ++ (beBytes 4 e.valLen ++
          (e.key ++ e.value.getD []))) := by
    simp [packedPayload]
  have h9len : (beBytes 8 e.seq_no ++ [e.op_type.value]).length = 9 := by
    simp [beBytes_length]
  have hop : e.packedPayload.getD 8 0 = e.op_type.value := by
    have h1 : e.packedPayload
        = beBytes 8 e.seq_no ++ ([e.op_type.value] ++
          (beBytes 2 e.key.length ++ (beBytes 4 e.valLen ++
            (e.key ++ e.value.getD [])))) := by
      simp [packedPayload]
    have h2 := getD_append_exact (beBytes 8 e.seq_no)
      ([e.op_type.value] ++ (beBytes 2 e.key.length ++ (beBytes 4 e.valLen ++
        (e.key ++ e.value.getD [])))) 0
    rw [beBytes_length] at h2
    rw [h1, h2]
    rfl
  have h9 : e.packedPayload.drop 9
      = beBytes 2 e.key.length ++ (beBytes 4 e.valLen ++
          (e.key ++ e.value.getD [])) := by
    rw [hP9]
    exact List.drop_left' h9len
  have hkl : (e.packedPayload.drop 9).take 2 = beBytes 2 e.key.length := by
    rw [h9]
    exact List.take_left' (beBytes_length 2 _)
  have h11 : e.packedPayload.drop 11
      = beBytes 4 e.valLen ++ (e.key ++ e.value.getD []) := by
    have h2 : e.packedPayload.drop 11 = (e.packedPayload.drop 9).drop 2 := by
      rw [List.drop_drop]
    rw [h2, h9]
    exact List.drop_left' (beBytes_length 2 _)
  have hvl : (e.packedPayload.drop 11).take 4 = beBytes 4 e.valLen := by
    rw [h11]
    exact List.take_left' (beBytes_length 4 _)
  have h15 : e.packedPayload.drop 15 = e.key ++ e.value.getD [] := by
    have h2 : e.packedPayload.drop 15 = (e.packedPayload.drop 11).drop 4 := by
      rw [List.drop_drop]
    rw [h2, h11]
    exact List.drop_left' (beBytes_length 4 _)
  have hkey : (e.packedPayload.drop 15).take e.key.length = e.key := by
    rw [h15]
    exact List.take_left' rfl
  have hval : (e.packedPayload.drop (15 + e.key.length)).take e.valLen
      = e.value.getD [] := by
    have h2 : e.packedPayload.drop (15 + e.key.length)
        = (e.packedPayload.drop 15).drop e.key.length := by
      rw [List.drop_drop]
    rw [h2, h15, List.drop_left]
    have h3 := List.take_length (e.value.getD [])
    unfold valLen
    exact h3
  unfold parsePayloadFields
  rw [if_neg (by omega)]
  simp only [h8, hop, hkl, hvl, hkey, hval, beDecode_beBytes 8 _ hseq,
    beDecode_beBytes 2 _ hklen, beDecode_beBytes 4 _ hvlen, ofValue_value]
  unfold normalized
  cases hv : e.value with
  | none => simp [valLen, hv]
  | some v =>
    cases v with
    | nil => simp [valLen, hv]
    | cons x xs => simp [valLen, hv]

/-- Characterization of a successful `to_bytes`. -/
theorem to_bytes_ok (e : WALEntry) (bs : List Nat)
    (h : e.to_bytes = .ok bs) :
    e.seq_no < 2 ^ 64 ∧ e.key.length < 2 ^ 16 ∧ e.valLen < 2 ^ 32 ∧
      e.packedPayload.length + 4 < 2 ^ 32 ∧ bs = e.packedFrame := by
  unfold to_bytes at h
  by_cases h1 : 2 ^ 64 ≤ e.seq_no ∨ 2 ^ 16 ≤ e.key.length ∨
      2 ^ 32 ≤ e.valLen
  · rw [if_pos h1] at h
    exact absurd h (by simp)
  · rw [if_neg h1] at h
    by_cases h2 : 2 ^ 32 ≤ e.packedPayload.length + 4
    · rw [if_pos h2] at h
      exact absurd h (by simp)
    · rw [if_neg h2] at h
      simp only [Except.ok.injEq] at h
      push_neg at h1
      exact ⟨h1.1, h1.2.1, h1.2.2, by omega, h.symm⟩

theorem normalized_payload_eq (e : WALEntry) :
    e.normalized.packedPayload = e.packedPayload
      ∧ e.normalized.valLen = e.valLen
      ∧ e.normalized.key = e.key ∧ e.normalized.seq_no = e.seq_no := by
  cases hv : e.value with
  | none => simp [normalized, packedPayload, valLen, hv]
  | some v =>
    cases v with
    | nil => simp [normalized, packedPayload, valLen, hv]
    | cons x xs => simp [normalized, packedPayload, valLen, hv]

theorem normalized_frame_eq (e : WALEntry) :
    e.normalized.packedFrame = e.packedFrame := by
  unfold packedFrame
  rw [(normalized_payload_eq e).1]

end WALEntry

/-! ## C7: WAL serialization round-trip -/

/-- C7.  For every byte string produced by `WALEntry.to_bytes` (the
hypothesis `e.to_bytes = .ok bs` confines `e` to the entries that
serialize, i.e. key ≤ 65 535 bytes and value within u32 framing; the
byte-boundedness hypotheses state that key and value are Python
`bytes`), deserializing with `from_bytes` and re-serializing with
`to_bytes` yields byte-for-byte the original buffer — also for PUT
entries with an empty value, which read back as `value = None` but
re-serialize to the identical bytes. -/
theorem wal_entry_roundtrip (e : WALEntry) (bs : List Nat)
    (hk : ∀ b ∈ e.key, b < 256) (hv : ∀ b ∈ e.value.getD [], b < 256)
    (h : e.to_bytes = .ok bs) :
    WALEntry.from_bytes bs = .ok e.normalized ∧
      e.normalized.to_bytes = .ok bs := by
  obtain ⟨hseq, hklen, hvlen, hL, hbs⟩ := WALEntry.to_bytes_ok e bs h
  have hcrc : crc32 e.packedPayload < 2 ^ 32 :=
    crc32_lt _ (e.packedPayload_bytes_lt hk hv)
  have hplen := e.packedPayload_length
  constructor
  · rw [hbs]
    have hassoc : e.packedFrame
        = beBytes 4 (e.packedPayload.length + 4) ++
          (e.packedPayload ++ beBytes 4 (crc32 e.packedPayload)) := by
      simp [WALEntry.packedFrame]
    rw [hassoc,
      WALEntry.from_bytes_split e.packedPayload _ (beBytes_length 4 _) hL,
      if_pos (beDecode_beBytes 4 _ hcrc).symm]
    exact e.parsePayloadFields_packed hseq hklen hvlen
  · obtain ⟨hpay, hvl, hkey, hsq⟩ := WALEntry.normalized_payload_eq e
    unfold WALEntry.to_bytes
    rw [if_neg (by rw [hvl, hkey, hsq]; omega),
      if_neg (by rw [hpay]; omega), WALEntry.normalized_frame_eq, hbs]

/-- C7 witness: a concrete empty-value PUT entry round-trips. -/
theorem wal_entry_roundtrip_witness :
    WALEntry.from_bytes wRtBytes = .ok wRtEntry.normalized ∧
      wRtEntry.normalized.to_bytes = .ok wRtBytes :=
  wal_entry_roundtrip wRtEntry wRtBytes (by decide) (by decide) (by rfl)

/-! ## C8: any single-byte corruption of the payload region is
detected by the CRC32 check -/

/-- C8.  For every serialized WAL entry `bs` and every position `j` in
the payload region (between the 4-byte length word and the 4-byte
CRC32 trailer), substituting any different byte value there makes
`WALEntry.from_bytes` fail with the CRC32-mismatch error. -/
theorem wal_bitflip_detected (e : WALEntry) (bs : List Nat)
    (hk : ∀ b ∈ e.key, b < 256) (hv : ∀ b ∈ e.value.getD [], b < 256)
    (h : e.to_bytes = .ok bs) (j : Nat) (hj4 : 4 ≤ j)
    (hjlt : j + 4 < bs.length) (b' : Nat) (hb' : b' < 256)
    (hne : b' ≠ bs.getD j 0) :
    WALEntry.from_bytes (bs.set j b') = .error "CRC32 mismatch" := by
  obtain ⟨hseq, hklen, hvlen, hL, hbs⟩ := WALEntry.to_bytes_ok e bs h
  have hbytes := e.packedPayload_bytes_lt hk hv
  have hcrc : crc32 e.packedPayload < 2 ^ 32 := crc32_lt _ hbytes
  have hassoc : bs
      = beBytes 4 (e.packedPayload.length + 4) ++
        (e.packedPayload ++ beBytes 4 (crc32 e.packedPayload)) := by
    rw [hbs]; simp [WALEntry.packedFrame]
  have hbslen : bs.length = 4 + e.packedPayload.length + 4 := by
    rw [hassoc]; simp [beBytes_length]; omega
  have hi : j - 4 < e.packedPayload.length := by omega
  have hset : bs.set j b'
      = beBytes 4 (e.packedPayload.length + 4) ++
        ((e.packedPayload.set (j - 4) b') ++
          beBytes 4 (crc32 e.packedPayload)) := by
    rw [hassoc,
      List.set_append_right j b' (by rw [beBytes_length]; omega),
      List.set_append_left _ b' (by rw [beBytes_length]; exact hi),
      beBytes_length]
  have hgd : bs.getD j 0 = e.packedPayload.getD (j - 4) 0 := by
    rw [hassoc,
      List.getD_append_right _ _ _ _ (by rw [beBytes_length]; omega),
      beBytes_length,
      List.getD_append _ _ _ _ hi]
  have hlenset : (e.packedPayload.set (j - 4) b').length
      = e.packedPayload.length := List.length_set ..
  have hsplit := WALEntry.from_bytes_split (e.packedPayload.set (j - 4) b')
    (beBytes 4 (crc32 e.packedPayload)) (beBytes_length 4 _)
    (by rw [hlenset]; exact hL)
  rw [hlenset] at hsplit
  rw [hset, hsplit,
    if_neg (by
      rw [beDecode_beBytes 4 _ hcrc]
      exact crc32_set_ne e.packedPayload hbytes (j - 4) hi b' hb'
        (by rw [← hgd]; exact hne))]

/-- C8 witness: flipping byte 5 (inside the seq_no field) of a
concrete serialized entry to 99 is reported as a CRC32 mismatch. -/
theorem wal_bitflip_detected_witness :
    WALEntry.from_bytes (wFlipBytes.set 5 99) = .error "CRC32 mismatch" :=
  wal_bitflip_detected wFlipEntry wFlipBytes (by decide) (by decide)
    (by rfl) 5 (by decide) (by decide) 99 (by decide) (by decide)

/-! ## C1: WAL reader on a file with a truncated tail -/

/-- C1 (code evaluation).  `walDemoFile` holds a valid header, one
complete CRC-correct entry, and a 2-byte truncated tail.  The claim
(and spec §4.4) requires iteration to yield the complete entry and
stop cleanly; the source instead raises: `_read_entry` strips the
4-byte length word before calling `WALEntry.from_bytes`, which
re-reads the first 4 payload bytes as a length, so even the complete
entry fails (with `struct.error`; and had it parsed, the truncated
tail would then raise `Truncated entry` rather than stop). -/
theorem wal_reader_truncated_tail_raises :
    WALReader.readAll walDemoFile = .error "struct.error" := by rfl

/-! ## Memtable store lemmas -/

theorem storeGet_storeSet_self (s : Store) (k : List Nat)
    (e : MemtableEntry) : storeGet (storeSet s k e) k = some e := by
  induction s with
  | nil => simp [storeSet, storeGet]
  | cons p rest ih =>
    obtain ⟨k0, e0⟩ := p
    by_cases h : k0 = k
    · simp [storeSet, storeGet, h]
    · simp [storeSet, storeGet, h, ih]

theorem mem_storeSet (s : Store) (k : List Nat) (e : MemtableEntry) :
    (k, e) ∈ storeSet s k e := by
  induction s with
  | nil => simp [storeSet]
  | cons p rest ih =>
    obtain ⟨k0, e0⟩ := p
    by_cases h : k0 = k
    · simp [storeSet, h]
    · simp only [storeSet, if_neg h]
      exact List.mem_cons_of_mem _ ih

theorem mem_of_mem_storeSet (s : Store) (k : List Nat) (e : MemtableEntry)
    (p : List Nat × MemtableEntry) (hp : p ∈ storeSet s k e) :
    p ∈ s ∨ p = (k, e) := by
  induction s with
  | nil => simpa [storeSet] using hp
  | cons q rest ih =>
    obtain ⟨k0, e0⟩ := q
    by_cases h : k0 = k
    · simp only [storeSet, if_pos h] at hp
      rcases List.mem_cons.mp hp with h1 | h1
      · right; rw [h1, h]
      · left; exact List.mem_cons_of_mem _ h1
    · simp only [storeSet, if_neg h] at hp
      rcases List.mem_cons.mp hp with h1 | h1
      · left; rw [h1]; exact List.mem_cons_self _ _
      · rcases ih h1 with h2 | h2
        · left; exact List.mem_cons_of_mem _ h2
        · right; exact h2

theorem storeSize_storeSet_found (s : Store) (k : List Nat)
    (e old : MemtableEntry) (h : storeGet s k = some old) :
    storeSize (storeSet s k e) + (k.length + old.size_bytes)
      = storeSize s + (k.length + e.size_bytes) := by
  induction s with
  | nil => simp [storeGet] at h
  | cons p rest ih =>
    obtain ⟨k0, e0⟩ := p
    by_cases hk : k0 = k
    · simp only [storeGet, if_pos hk, Option.some.injEq] at h
      subst h
      simp only [storeSet, if_pos hk, storeSize, List.map_cons, List.sum_cons]
      subst hk
      omega
    · simp only [storeGet, if_neg hk] at h
      simp only [storeSet, if_neg hk, storeSize, List.map_cons,
        List.sum_cons]
      have := ih h
      simp only [storeSize] at this
      omega

theorem storeSize_storeSet_new (s : Store) (k : List Nat)
    (e : MemtableEntry) (h : storeGet s k = none) :
    storeSize (storeSet s k e) = storeSize s + (k.length + e.size_bytes) := by
  induction s with
  | nil => simp [storeSet, storeSize]
  | cons p rest ih =>
    obtain ⟨k0, e0⟩ := p
    by_cases hk : k0 = k
    · simp [storeGet, if_pos hk] at h
    · simp only [storeGet, if_neg hk] at h
      simp only [storeSet, if_neg hk, storeSize, List.map_cons,
        List.sum_cons]
      have := ih h
      simp only [storeSize] at this
      omega

/-- `_set` either leaves the memtable un-rotated (same immutable
queue, store extended) or rotates (fresh empty store, zero size, the
full post-insert store enqueued with the inserted entry's seq_no as
checkpoint). -/
theorem mset_cases (st : MemtableState) (k : List Nat) (e : MemtableEntry) :
    ((Memtable.mset st k e).store = storeSet st.store k e
      ∧ (Memtable.mset st k e).immutables = st.immutables)
    ∨ (Memtable.mset st k e
        = ⟨[], 0, st.immutables ++ [some ⟨storeSet st.store k e, e.seq_no⟩]⟩) := by
  unfold Memtable.mset
  split <;> (try simp only []) <;> split
  · right; rfl
  · left; exact ⟨rfl, rfl⟩
  · right; rfl
  · left; exact ⟨rfl, rfl⟩

/-! ## C6: size accounting invariant -/

theorem mset_size_invariant (st : MemtableState) (k : List Nat)
    (e : MemtableEntry) (h : st.size_bytes = (storeSize st.store : Int)) :
    (Memtable.mset st k e).size_bytes
        = (storeSize (Memtable.mset st k e).store : Int)
      ∧ (Memtable.mset st k e).size_bytes
        < (Memtable.MAX_SIZE_BYTES : Int) := by
  unfold Memtable.mset
  split
  next old hget =>
    have hfound := storeSize_storeSet_found st.store k e old hget
    simp only []
    split
    next hrot => simp [storeSize, Memtable.MAX_SIZE_BYTES]
    next hrot =>
      push_cast at h hrot ⊢
      have hcast : (storeSize (storeSet st.store k e) : Int)
          + ((k.length : Int) + (old.size_bytes : Int))
          = (storeSize st.store : Int)
          + ((k.length : Int) + (e.size_bytes : Int)) := by
        exact_mod_cast congrArg (Nat.cast (R := Int)) hfound
      constructor
      · omega
      · simp only [Memtable.MAX_SIZE_BYTES] at hrot ⊢
        push_cast at hrot ⊢
        omega
  next hget =>
    have hnew := storeSize_storeSet_new st.store k e hget
    simp only []
    split
    next hrot => simp [storeSize, Memtable.MAX_SIZE_BYTES]
    next hrot =>
      push_cast at h hrot ⊢
      have hcast : (storeSize (storeSet st.store k e) : Int)
          = (storeSize st.store : Int)
          + ((k.length : Int) + (e.size_bytes : Int)) := by
        exact_mod_cast congrArg (Nat.cast (R := Int)) hnew
      constructor
      · omega
      · simp only [Memtable.MAX_SIZE_BYTES] at hrot ⊢
        push_cast at hrot ⊢
        omega

/-- C6.  After any sequence of puts/deletes from a fresh memtable, the
accounted `_size_bytes` equals Σ (key_length + 8 + value_length_or_0)
over the live bindings of the *mutable* store alone (immutable tables
contribute nothing), and — because the size check and rotation happen
in the same critical section as the insert — the value the caller
observes on return is strictly below the 4 MiB rotation threshold. -/
theorem memtable_size_accounting (ops : List (List Nat × MemtableEntry)) :
    (Memtable.applyOps Memtable.init ops).size_bytes
        = (storeSize (Memtable.applyOps Memtable.init ops).store : Int)
      ∧ (Memtable.applyOps Memtable.init ops).size_bytes
        < (Memtable.MAX_SIZE_BYTES : Int) := by
  suffices haux : ∀ (st : MemtableState),
      st.size_bytes = (storeSize st.store : Int) →
      st.size_bytes < (Memtable.MAX_SIZE_BYTES : Int) →
      (Memtable.applyOps st ops).size_bytes
          = (storeSize (Memtable.applyOps st ops).store : Int)
        ∧ (Memtable.applyOps st ops).size_bytes
          < (Memtable.MAX_SIZE_BYTES : Int) by
    exact haux Memtable.init (by simp [Memtable.init, storeSize])
      (by simp [Memtable.init, Memtable.MAX_SIZE_BYTES])
  induction ops with
  | nil => intro st h1 h2; exact ⟨h1, h2⟩
  | cons op rest ih =>
    intro st h1 _
    have hstep : Memtable.applyOps st (op :: rest)
        = Memtable.applyOps (Memtable.mset st op.1 op.2) rest := rfl
    rw [hstep]
    obtain ⟨hs1, hs2⟩ := mset_size_invariant st op.1 op.2 h1
    exact ih _ hs1 hs2

/-! ## C3: rotation checkpoint carries the maximum seq_no -/

theorem checkpoint_aux (ops : List (List Nat × MemtableEntry)) :
    ∀ (st : MemtableState) (a : Nat),
      (∀ p ∈ st.store, p.2.seq_no ≤ a) →
      (∀ t, some t ∈ st.immutables →
        t.store ≠ [] ∧ (∀ p ∈ t.store, p.2.seq_no ≤ t.checkpoint_seq_no) ∧
          ∃ p ∈ t.store, p.2.seq_no = t.checkpoint_seq_no) →
      ops.Pairwise (fun x y => x.2.seq_no ≤ y.2.seq_no) →
      (∀ op ∈ ops, a ≤ op.2.seq_no) →
      ∀ t, some t ∈ (Memtable.applyOps st ops).immutables →
        t.store ≠ [] ∧ (∀ p ∈ t.store, p.2.seq_no ≤ t.checkpoint_seq_no) ∧
          ∃ p ∈ t.store, p.2.seq_no = t.checkpoint_seq_no := by
  induction ops with
  | nil =>
    intro st a _ h2 _ _
    simpa [Memtable.applyOps] using h2
  | cons op rest ih =>
    intro st a h1 h2 hpw hge
    obtain ⟨k, e⟩ := op
    have hae : a ≤ e.seq_no := hge (k, e) (List.mem_cons_self ..)
    have hpw' := List.pairwise_cons.mp hpw
    have hstore' : ∀ p ∈ storeSet st.store k e, p.2.seq_no ≤ e.seq_no := by
      intro p hp
      rcases mem_of_mem_storeSet _ _ _ p hp with h | h
      · exact le_trans (h1 p h) hae
      · rw [h]
    have hstep : Memtable.applyOps st ((k, e) :: rest)
        = Memtable.applyOps (Memtable.mset st k e) rest := rfl
    rw [hstep]
    have hrest : ∀ op' ∈ rest, e.seq_no ≤ op'.2.seq_no := hpw'.1
    rcases mset_cases st k e with ⟨hst, himm⟩ | heq
    · exact ih (Memtable.mset st k e) e.seq_no (hst ▸ hstore')
        (himm ▸ h2) hpw'.2 hrest
    · rw [heq]
      refine ih _ e.seq_no (by simp) ?_ hpw'.2 hrest
      intro t ht
      simp only [List.mem_append, List.mem_singleton] at ht
      rcases ht with ht | ht
      · exact h2 t ht
      · obtain rfl : t = ⟨storeSet st.store k e, e.seq_no⟩ :=
          Option.some.inj ht
        exact ⟨List.ne_nil_of_mem (mem_storeSet st.store k e), hstore',
          (k, e), mem_storeSet st.store k e, rfl⟩

/-- C3.  If the caller assigns monotonically increasing seq_nos, then
every `FlushTask` ever enqueued by a rotation carries as
`checkpoint_seq_no` exactly the maximum seq_no among the entries of
its rotated store (the triggering insert's seq_no: it is an upper
bound of the store and is attained by it). -/
theorem memtable_checkpoint_is_max (ops : List (List Nat × MemtableEntry))
    (hmono : ops.Pairwise (fun x y => x.2.seq_no ≤ y.2.seq_no)) :
    ∀ t, some t ∈ (Memtable.applyOps Memtable.init ops).immutables →
      t.store ≠ [] ∧ (∀ p ∈ t.store, p.2.seq_no ≤ t.checkpoint_seq_no) ∧
        ∃ p ∈ t.store, p.2.seq_no = t.checkpoint_seq_no :=
  checkpoint_aux ops Memtable.init 0 (by simp [Memtable.init])
    (by simp [Memtable.init]) hmono (fun op _ => Nat.zero_le _)

/-- The accounted size of an entry dominates its value length. -/
theorem size_bytes_value_le (e : MemtableEntry) :
    (e.value.getD []).length ≤ e.size_bytes := by
  simp [MemtableEntry.size_bytes]

set_option maxRecDepth 4096 in
/-- Inserting the 4 MiB `rotEntry` into a fresh memtable rotates. -/
theorem rotEntry_mset_rotates : Memtable.mset Memtable.init [1] rotEntry
    = ⟨[], 0, [] ++ [some ⟨storeSet [] [1] rotEntry, rotEntry.seq_no⟩]⟩ := by
  have hv : rotEntry.value.getD []
      = List.replicate Memtable.MAX_SIZE_BYTES 0 := rfl
  have hlen : (rotEntry.value.getD []).length = Memtable.MAX_SIZE_BYTES :=
    (congrArg List.length hv).trans (List.length_replicate ..)
  have hge : Memtable.MAX_SIZE_BYTES ≤ rotEntry.size_bytes :=
    hlen ▸ size_bytes_value_le rotEntry
  simp only [Memtable.mset, Memtable.init, storeGet]
  rw [if_pos (by push_cast; omega)]

set_option maxRecDepth 4096 in
theorem rotTask_enqueued :
    some rotTask ∈ (Memtable.applyOps Memtable.init rotOps).immutables := by
  have hhalf : some rotTask ∈
      ((⟨[], 0, [] ++ [some ⟨storeSet [] [1] rotEntry, rotEntry.seq_no⟩]⟩ :
        MemtableState)).immutables := by
    have hstore : storeSet [] [1] rotEntry = [([1], rotEntry)] := rfl
    have hseq : rotEntry.seq_no = 5 := rfl
    rw [hstore, hseq]
    simp only [List.nil_append, List.mem_singleton]
    rfl
  have happY : Memtable.applyOps Memtable.init rotOps
      = List.foldl (fun s op => Memtable.mset s op.1 op.2) Memtable.init
          rotOps := rfl
  have happ : Memtable.applyOps Memtable.init rotOps
      = Memtable.mset Memtable.init [1] rotEntry := by
    rw [happY, show rotOps = [([1], rotEntry)] from rfl, List.foldl_cons,
      List.foldl_nil]
  rw [happ, rotEntry_mset_rotates]
  exact hhalf

/-- C3 witness: one 4 MiB put forces a rotation enqueueing `rotTask`,
and the theorem instantiated there shows its checkpoint (5) bounds and
is attained by the rotated store. -/
theorem memtable_checkpoint_is_max_witness :
    some rotTask ∈ (Memtable.applyOps Memtable.init rotOps).immutables
    ∧ rotTask.store ≠ []
    ∧ rotEntry.seq_no ≤ rotTask.checkpoint_seq_no
    ∧ rotEntry.seq_no = rotTask.checkpoint_seq_no := by
  have hfacts := memtable_checkpoint_is_max rotOps (by simp [rotOps])
    rotTask rotTask_enqueued
  refine ⟨rotTask_enqueued, hfacts.1, ?_, ?_⟩
  · exact hfacts.2.1 ([1], rotEntry) (by simp [rotTask])
  · obtain ⟨p, hp, hpe⟩ := hfacts.2.2
    have hpeq : p = ([1], rotEntry) := by
      simpa [rotTask] using hp
    rw [← hpe, hpeq]

/-! ## C5: lookup order of `Memtable.get` -/

theorem scanTasks_eq_head (l : List (Option FlushTask)) (key : List Nat) :
    Memtable.scanTasks l key
      = (l.filterMap (fun ot => ot.bind (fun t => storeGet t.store key))).head? := by
  induction l with
  | nil => rfl
  | cons ot rest ih =>
    cases ot with
    | none => simpa [Memtable.scanTasks, List.filterMap_cons] using ih
    | some t =>
      cases hget : storeGet t.store key with
      | none => simpa [Memtable.scanTasks, List.filterMap_cons, hget] using ih
      | some e => simp [Memtable.scanTasks, List.filterMap_cons, hget]

theorem scanTasks_eq_none_iff (l : List (Option FlushTask)) (key : List Nat) :
    Memtable.scanTasks l key = none
      ↔ ∀ t, some t ∈ l → storeGet t.store key = none := by
  induction l with
  | nil => simp [Memtable.scanTasks]
  | cons ot rest ih =>
    cases ot with
    | none => simpa [Memtable.scanTasks] using ih
    | some t =>
      cases hget : storeGet t.store key with
      | none => simp [Memtable.scanTasks, hget, ih]
      | some e => simp [Memtable.scanTasks, hget]

/-- C5.  `Memtable.get` looks the key up in the mutable store first;
on a miss it scans the immutable queue newest → oldest and returns the
first hit — tombstone entries (value `none`) included, nothing filters
them — and it returns `none` exactly when the key is bound in neither
the mutable store nor any queued immutable table. -/
theorem memtable_get_lookup_order (st : MemtableState) (key : List Nat) :
    (∀ e, storeGet st.store key = some e → Memtable.get st key = some e)
    ∧ (storeGet st.store key = none →
        Memtable.get st key
          = (st.immutables.reverse.filterMap
              (fun ot => ot.bind (fun t => storeGet t.store key))).head?)
    ∧ (Memtable.get st key = none ↔
        storeGet st.store key = none
          ∧ ∀ t, some t ∈ st.immutables → storeGet t.store key = none) := by
  refine ⟨?_, ?_, ?_⟩
  · intro e hget
    simp [Memtable.get, hget]
  · intro hget
    simp [Memtable.get, hget, scanTasks_eq_head]
  · cases hget : storeGet st.store key with
    | some e => simp [Memtable.get, hget]
    | none =>
      simp only [Memtable.get, hget, scanTasks_eq_none_iff, true_and,
        List.mem_reverse]

/-- C5 witness: a key bound only in an immutable task is found by the
queue scan. -/
theorem memtable_get_lookup_order_witness :
    storeGet demoMemState.store [5] = none ∧
      Memtable.get demoMemState [5] = some ⟨1, some [9]⟩ :=
  ⟨by decide, by
    rw [(memtable_get_lookup_order demoMemState [5]).2.1 (by decide)]
    decide⟩

/-! ## C9: there is no API-boundary argument validation -/

/-- C9 counterexample: `put` with a zero-length key is not rejected —
it mutates the store (the claim requires an InvalidArgument-style
rejection before any state change). -/
theorem memtable_accepts_empty_key :
    (Memtable.mset Memtable.init [] ⟨1, some [7]⟩).store
      = [([], ⟨1, some [7]⟩)] := by decide

/-- C9 as amended.  No public write operation validates arguments:
`_set` (the body of `put` and `delete`) accepts every key — zero-length
included — and the inserted entry is immediately visible to `get`; the
only size limits are the ones `struct.pack` enforces inside
`WALEntry.to_bytes`, which fails exactly when seq_no exceeds u64, the
key exceeds 65 535 bytes, or the framed length 19 + key_len + val_len
exceeds u32 — not at the memtable API boundary, and never for
zero-length keys. -/
theorem write_path_no_validation :
    (∀ (st : MemtableState) (k : List Nat) (e : MemtableEntry),
      Memtable.get (Memtable.mset st k e) k = some e)
    ∧ (∀ e : WALEntry, (∃ s, e.to_bytes = .error s) ↔
        (2 ^ 64 ≤ e.seq_no ∨ 2 ^ 16 ≤ e.key.length
          ∨ 2 ^ 32 ≤ 19 + e.key.length + e.valLen)) := by
  constructor
  · intro st k e
    rcases mset_cases st k e with ⟨hst, _⟩ | heq
    · simp [Memtable.get, hst, storeGet_storeSet_self]
    · rw [heq]
      simp [Memtable.get, storeGet, Memtable.scanTasks,
        storeGet_storeSet_self]
  · intro e
    have hplen := e.packedPayload_length
    unfold WALEntry.to_bytes
    by_cases h1 : 2 ^ 64 ≤ e.seq_no ∨ 2 ^ 16 ≤ e.key.length
        ∨ 2 ^ 32 ≤ e.valLen
    · rw [if_pos h1]
      simp only [Except.error.injEq, exists_eq']
      constructor
      · intro _; omega
      · intro _; trivial
    · rw [if_neg h1]
      push_neg at h1
      by_cases h2 : 2 ^ 32 ≤ e.packedPayload.length + 4
      · rw [if_pos h2]
        simp only [Except.error.injEq, exists_eq']
        constructor
        · intro _; omega
        · intro _; trivial
      · rw [if_neg h2]
        simp only [reduceCtorEq, exists_false, false_iff]
        omega

/-! ## C2: SSTableReader.get cannot scan a block -/

/-- C2 (code evaluation).  On a healthy single-block table whose bloom
filter and sparse index admit the key and whose checksum verifies,
`get` does not return the stored value: it fails at the entry scan,
because `for entry in block:` iterates a `Block`, which defines no
`__iter__` (`iter_entries` exists but is never called). -/
theorem sstable_get_not_iterable :
    SSTableReader.get demoChecksum (fun _ => true) demoSparseIndex
        demoSSTFile [107]
      = .error "TypeError: 'Block' object is not iterable" := by rfl

/-! ## SSTable entry serialization lemmas -/

namespace SSTableEntry

theorem packedPayload_length' (e : SSTableEntry) :
    e.packedPayload.length = 15 + e.key.length + e.valLen := by
  simp [packedPayload, beBytes_length, valLen]
  omega

theorem packedWire_length (e : SSTableEntry) :
    e.packedWire.length = e.bytes_size := by
  simp [packedWire, beBytes_length, bytes_size, packedPayload_length']
  omega

theorem to_bytes_of_inRange (e : SSTableEntry) (h : e.InRange) :
    e.to_bytes = .ok e.packedWire := by
  obtain ⟨h1, h2, h3⟩ := h
  unfold to_bytes
  rw [if_neg (by omega), if_neg (by rw [packedPayload_length']; omega)]

theorem from_bytes_packedWire (e : SSTableEntry) (h : e.InRange) :
    from_bytes e.packedWire = .ok e := by
  obtain ⟨h1, h2, h3⟩ := h
  have hplen := e.packedPayload_length'
  have hwire : e.packedWire
      = beBytes 4 e.packedPayload.length ++ e.packedPayload := rfl
  have hwlen : e.packedWire.length = 4 + e.packedPayload.length := by
    simp [packedWire, beBytes_length]
  have htake4 : e.packedWire.take 4 = beBytes 4 e.packedPayload.length := by
    rw [hwire]
    exact List.take_left' (beBytes_length 4 _)
  have hdrop4 : e.packedWire.drop 4 = e.packedPayload := by
    rw [hwire]
    exact List.drop_left' (beBytes_length 4 _)
  have hpayfull : e.packedPayload.take e.packedPayload.length
      = e.packedPayload := List.take_length _
  -- field extraction from the payload
  have h8 : e.packedPayload.take 8 = beBytes 8 e.seq_no := by
    simp only [packedPayload, List.append_assoc]
    exact List.take_left' (beBytes_length 8 _)
  have hd8 : e.packedPayload.drop 8
      = beBytes 2 e.key.length ++ (beBytes 4 e.valLen ++
          ([e.tombstoneFlag] ++ (e.key ++ e.value.getD []))) := by
    have hP : e.packedPayload
        = beBytes 8 e.seq_no ++ (beBytes 2 e.key.length ++
            (beBytes 4 e.valLen ++
              ([e.tombstoneFlag] ++ (e.key ++ e.value.getD [])))) := by
      simp [packedPayload]
    rw [hP]
    exact List.drop_left' (beBytes_length 8 _)
  have hkl : (e.packedPayload.drop 8).take 2 = beBytes 2 e.key.length := by
    rw [hd8]
    exact List.take_left' (beBytes_length 2 _)
  have hd10 : e.packedPayload.drop 10
      = beBytes 4 e.valLen ++
          ([e.tombstoneFlag] ++ (e.key ++ e.value.getD [])) := by
    have h2' : e.packedPayload.drop 10 = (e.packedPayload.drop 8).drop 2 := by
      rw [List.drop_drop]
    rw [h2', hd8]
    exact List.drop_left' (beBytes_length 2 _)
  have hvl : (e.packedPayload.drop 10).take 4 = beBytes 4 e.valLen := by
    rw [hd10]
    exact List.take_left' (beBytes_length 4 _)
  have hflag : e.packedPayload.getD 14 0 = e.tombstoneFlag := by
    have hP : e.packedPayload
        = (beBytes 8 e.seq_no ++ beBytes 2 e.key.length ++
            beBytes 4 e.valLen) ++
          ([e.tombstoneFlag] ++ (e.key ++ e.value.getD [])) := by
      simp [packedPayload]
    have h14 := WALEntry.getD_append_exact
      (beBytes 8 e.seq_no ++ beBytes 2 e.key.length ++ beBytes 4 e.valLen)
      ([e.tombstoneFlag] ++ (e.key ++ e.value.getD [])) 0
    rw [show (beBytes 8 e.seq_no ++ beBytes 2 e.key.length ++
        beBytes 4 e.valLen).length = 14 by simp [beBytes_length]] at h14
    rw [hP, h14]
    rfl
  have hd15 : e.packedPayload.drop 15 = e.key ++ e.value.getD [] := by
    have h2' : e.packedPayload.drop 15
        = (e.packedPayload.drop 10).drop 5 := by
      rw [List.drop_drop]
    rw [h2', hd10]
    have hP : beBytes 4 e.valLen ++
        ([e.tombstoneFlag] ++ (e.key ++ e.value.getD []))
        = (beBytes 4 e.valLen ++ [e.tombstoneFlag]) ++
          (e.key ++ e.value.getD []) := by simp
    rw [hP]
    exact List.drop_left' (by simp [beBytes_length])
  have hkey : (e.packedPayload.drop 15).take e.key.length = e.key := by
    rw [hd15]
    exact List.take_left' rfl
  have hval : (e.packedPayload.drop (15 + e.key.length)).take e.valLen
      = e.value.getD [] := by
    have h2' : e.packedPayload.drop (15 + e.key.length)
        = (e.packedPayload.drop 15).drop e.key.length := by
      rw [List.drop_drop]
    rw [h2', hd15, List.drop_left]
    have h3' := List.take_length (e.value.getD [])
    unfold valLen
    exact h3'
  have hext : ∀ (x : SSTableEntry), x.key = e.key → x.value = e.value →
      x.seq_no = e.seq_no → x = e := by
    intro x hx1 hx2 hx3
    cases x; cases e
    simp_all
  unfold from_bytes
  rw [if_neg (by rw [hwlen]; omega)]
  simp only [htake4, hdrop4,
    beDecode_beBytes 4 e.packedPayload.length (by rw [hplen]; omega),
    hpayfull, h8, hkl, hvl, hflag, hkey, hval,
    beDecode_beBytes 8 e.seq_no h1, beDecode_beBytes 2 e.key.length h2,
    beDecode_beBytes 4 e.valLen (by omega)]
  rw [if_neg (by omega)]
  cases hv : e.value with
  | none =>
    simp only [tombstoneFlag, hv, Except.ok.injEq]
    norm_num
    exact hext _ rfl hv.symm rfl
  | some v =>
    simp only [tombstoneFlag, hv, Except.ok.injEq, Option.getD_some]
    norm_num
    exact hext _ rfl hv.symm rfl

end SSTableEntry

theorem serializeAll_nil : SSTableWriter.serializeAll [] = [] := rfl

theorem serializeAll_cons (e : SSTableEntry) (rest : List SSTableEntry) :
    SSTableWriter.serializeAll (e :: rest)
      = e.packedWire ++ SSTableWriter.serializeAll rest := by
  simp [SSTableWriter.serializeAll]

theorem parseLoop_ne_nil (fuel : Nat) (data : List Nat) (hne : data ≠ []) :
    Block.parseLoop (fuel + 1) data =
      if data.length < 4 then .error "struct.error" else
      match SSTableEntry.from_bytes
          (data.take (4 + beDecode (data.take 4))) with
      | .error s => .error s
      | .ok e =>
        match Block.parseLoop fuel
            (data.drop (4 + beDecode (data.take 4))) with
        | .error s => .error s
        | .ok es => .ok (e :: es) := by
  cases data with
  | nil => exact absurd rfl hne
  | cons d ds => rfl

theorem parseLoop_serializeAll (g : List SSTableEntry)
    (hval : ∀ e ∈ g, e.InRange) :
    ∀ fuel, (SSTableWriter.serializeAll g).length + 1 ≤ fuel →
      Block.parseLoop fuel (SSTableWriter.serializeAll g) = .ok g := by
  induction g with
  | nil =>
    intro fuel hfuel
    obtain ⟨f, rfl⟩ : ∃ f, fuel = f + 1 := ⟨fuel - 1, by omega⟩
    rfl
  | cons e rest ih =>
    intro fuel hfuel
    have he : e.InRange := hval e (List.mem_cons_self ..)
    obtain ⟨hseq, hklen, hlen⟩ := he
    have hplen := e.packedPayload_length'
    have hwlen : e.packedWire.length = 4 + e.packedPayload.length := by
      simp [SSTableEntry.packedWire, beBytes_length]
    rw [serializeAll_cons] at hfuel ⊢
    obtain ⟨f, rfl⟩ : ∃ f, fuel = f + 1 :=
      ⟨fuel - 1, by simp at hfuel; omega⟩
    have hne : e.packedWire ++ SSTableWriter.serializeAll rest ≠ [] := by
      intro hcontra
      have h0 := congrArg List.length hcontra
      rw [List.length_append, hwlen] at h0
      simp only [List.length_nil] at h0
      omega
    rw [parseLoop_ne_nil f _ hne]
    have htake4 : (e.packedWire ++ SSTableWriter.serializeAll rest).take 4
        = beBytes 4 e.packedPayload.length := by
      have : e.packedWire ++ SSTableWriter.serializeAll rest
          = beBytes 4 e.packedPayload.length ++
            (e.packedPayload ++ SSTableWriter.serializeAll rest) := by
        simp [SSTableEntry.packedWire]
      rw [this]
      exact List.take_left' (beBytes_length 4 _)
    have hdecode : beDecode ((e.packedWire ++
        SSTableWriter.serializeAll rest).take 4)
        = e.packedPayload.length := by
      rw [htake4]
      exact beDecode_beBytes 4 _ (by rw [hplen]; omega)
    have htakeWire : (e.packedWire ++ SSTableWriter.serializeAll rest).take
        (4 + e.packedPayload.length) = e.packedWire :=
      List.take_left' hwlen
    have hdropWire : (e.packedWire ++ SSTableWriter.serializeAll rest).drop
        (4 + e.packedPayload.length) = SSTableWriter.serializeAll rest :=
      List.drop_left' hwlen
    rw [if_neg (by simp [hwlen]; omega)]
    simp only [hdecode, htakeWire, hdropWire,
      e.from_bytes_packedWire ⟨hseq, hklen, hlen⟩]
    rw [ih (fun x hx => hval x (List.mem_cons_of_mem e hx)) f
      (by simp [hwlen] at hfuel ⊢; omega)]

theorem mapM_to_bytes (g : List SSTableEntry)
    (hval : ∀ e ∈ g, e.InRange) :
    g.mapM SSTableEntry.to_bytes = .ok (g.map SSTableEntry.packedWire) := by
  induction g with
  | nil => rfl
  | cons e rest ih =>
    rw [List.mapM_cons,
      e.to_bytes_of_inRange (hval e (List.mem_cons_self ..)),
      ih (fun x hx => hval x (List.mem_cons_of_mem e hx))]
    rfl

theorem from_entries_ok (c : Codec) (g : List SSTableEntry) (hne : g ≠ [])
    (hval : ∀ e ∈ g, e.InRange) :
    Block.from_entries c g = .ok (SSTableWriter.blockOf c g) := by
  unfold Block.from_entries
  rw [if_neg hne, mapM_to_bytes g hval]
  rfl

theorem iter_entries_blockOf (c : Codec) (hc : c.Lossless)
    (g : List SSTableEntry) (hval : ∀ e ∈ g, e.InRange) :
    Block.iter_entries c (SSTableWriter.blockOf c g) = .ok g := by
  unfold Block.iter_entries Block.decompress SSTableWriter.blockOf
  simp only [hc (SSTableWriter.serializeAll g)]
  exact parseLoop_serializeAll g hval _ (le_refl _)

/-! ## C10: block construction / iteration round-trip -/

/-- C10 counterexample: the claim's stated hypotheses (key ≤ 65 535
bytes, value ≤ 2³²−1 bytes) admit entries whose *other* fields do not
pack — here seq_no = 2⁶⁴, a 1-byte key and no value — and for those
`Block.from_entries` raises `struct.error` instead of producing a
block whose iteration yields the list. -/
theorem block_from_entries_seq_overflow :
    Block.from_entries idCodec [⟨[0], none, 2 ^ 64⟩] = .error "struct.error"
    := by rfl

/-- C10 as amended.  For every non-empty list of entries that
`struct.pack` accepts (seq_no < 2⁶⁴, key length < 2¹⁶, and framed
payload 15 + key_len + val_len < 2³² — which bounds values by 2³²−1),
and any lossless codec, iterating `Block.from_entries(entries)` yields
exactly the original list, with tombstones (`None`) and empty
non-tombstone values (`b""`) preserved distinctly (the tombstone flag
byte keeps them apart on the wire). -/
theorem block_entries_roundtrip (c : Codec) (hc : c.Lossless)
    (entries : List SSTableEntry) (hne : entries ≠ [])
    (hval : ∀ e ∈ entries, e.InRange) :
    ∃ b, Block.from_entries c entries = .ok b
      ∧ Block.iter_entries c b = .ok entries :=
  ⟨SSTableWriter.blockOf c entries, from_entries_ok c entries hne hval,
    iter_entries_blockOf c hc entries hval⟩

/-- C10 witness: a tombstone, an empty value and a normal value
round-trip distinctly through a concrete block. -/
theorem block_entries_roundtrip_witness :
    ∃ b, Block.from_entries idCodec demoBlockEntries = .ok b
      ∧ Block.iter_entries idCodec b = .ok demoBlockEntries :=
  block_entries_roundtrip idCodec (fun _ => rfl) demoBlockEntries
    (by decide) (by decide)

/-! ## C4: the SSTable writer's block partition and sparse index -/

theorem keyLt_self (a : List Nat) : keyLt a a = false := by
  induction a with
  | nil => rfl
  | cons x xs ih => simp [keyLt, ih]

theorem keyLt_ne {a b : List Nat} (h : keyLt a b = true) : a ≠ b := by
  intro hcontra
  rw [hcontra, keyLt_self] at h
  exact Bool.false_ne_true h

theorem entriesSize_nil : SSTableWriter.entriesSize [] = 0 := rfl

theorem entriesSize_append_singleton (g : List SSTableEntry)
    (e : SSTableEntry) :
    SSTableWriter.entriesSize (g ++ [e])
      = SSTableWriter.entriesSize g + e.bytes_size := by
  simp [SSTableWriter.entriesSize]

theorem chunkAux_flatten (th : Nat) (es : List SSTableEntry) :
    ∀ buf curr, (chunkAux th es buf curr).flatten = buf ++ es := by
  induction es with
  | nil =>
    intro buf curr
    by_cases hb : buf = [] <;> simp [chunkAux, hb]
  | cons e rest ih =>
    intro buf curr
    simp only [chunkAux]
    split
    · simp [ih]
    · simp [ih]

theorem chunkAux_groups_ne_nil (th : Nat) (es : List SSTableEntry) :
    ∀ buf curr g, g ∈ chunkAux th es buf curr → g ≠ [] := by
  induction es with
  | nil =>
    intro buf curr g hg
    by_cases hb : buf = []
    · simp [chunkAux, hb] at hg
    · simp only [chunkAux, if_pos rfl, if_neg hb, List.mem_singleton] at hg
      rw [hg]
      exact hb
  | cons e rest ih =>
    intro buf curr g hg
    simp only [chunkAux] at hg
    split at hg
    · rcases List.mem_cons.mp hg with h | h
      · rw [h]
        simp
      · exact ih [] 0 g h
    · exact ih (buf ++ [e]) _ g hg

theorem idxOf_length (c : Codec) (gs : List (List SSTableEntry)) :
    ∀ off, (SSTableWriter.idxOf c gs off).length = gs.length := by
  induction gs with
  | nil => intro off; rfl
  | cons g rest ih => intro off; simp [SSTableWriter.idxOf, ih]

theorem idxOf_getD (c : Codec) (gs : List (List SSTableEntry)) :
    ∀ off i, i < gs.length →
      (SSTableWriter.idxOf c gs off).getD i default
        = ⟨((gs.getD i []).headD default).key,
            off + ((gs.take i).map
              (fun g => (SSTableWriter.blockOf c g).size)).sum⟩ := by
  induction gs with
  | nil => intro off i h; exact absurd h (by simp)
  | cons g rest ih =>
    intro off i hi
    cases i with
    | zero => simp [SSTableWriter.idxOf]
    | succ i =>
      simp only [SSTableWriter.idxOf, List.getD_cons_succ,
        List.take_succ_cons, List.map_cons, List.sum_cons]
      rw [ih (off + (SSTableWriter.blockOf c g).size) i (by simpa using hi)]
      simp [Nat.add_assoc]

theorem block_to_bytes_length (cs : ChecksumFn) (b : Block) :
    (Block.to_bytes cs b).length = b.size := by
  simp [Block.to_bytes, Block.size, beBytes_length]
  omega

theorem mapM_iter_entries (c : Codec) (hc : c.Lossless) :
    ∀ gs : List (List SSTableEntry),
      (∀ g ∈ gs, ∀ e ∈ g, e.InRange) →
      (gs.map (SSTableWriter.blockOf c)).mapM (Block.iter_entries c)
        = .ok gs := by
  intro gs
  induction gs with
  | nil => intro _; rfl
  | cons g rest ih =>
    intro hval
    rw [List.map_cons, List.mapM_cons,
      iter_entries_blockOf c hc g (hval g (List.mem_cons_self ..)),
      ih (fun x hx => hval x (List.mem_cons_of_mem g hx))]
    rfl

/-- The central induction: `_build_blocks_and_index`'s loop, run from
any accumulator whose `curr_size` is the buffered entries' size,
produces exactly the blocks and index entries of the greedy spec-side
partition `chunkAux` of the remaining items (appended to what is
already accumulated), and counts every entry. -/
theorem buildLoop_spec (c : Codec) (items : List (List Nat × MemtableEntry)) :
    ∀ (buf : List SSTableEntry) (blocks : List Block)
      (index : List SparseIndexEntry) (offset total : Nat),
      (∀ e ∈ buf, e.InRange) →
      (∀ p ∈ items, (SSTableWriter.mkEntry p).InRange) →
      SSTableWriter.buildLoop c items
          ⟨buf, blocks, index, SSTableWriter.entriesSize buf, offset, total⟩
        = .ok (blocks ++ (chunkAux SSTableWriter.BLOCK_SIZE
              (items.map SSTableWriter.mkEntry) buf
              (SSTableWriter.entriesSize buf)).map (SSTableWriter.blockOf c),
            index ++ SSTableWriter.idxOf c
              (chunkAux SSTableWriter.BLOCK_SIZE
                (items.map SSTableWriter.mkEntry) buf
                (SSTableWriter.entriesSize buf)) offset,
            total + buf.length + items.length) := by
  induction items with
  | nil =>
    intro buf blocks index offset total hbuf _
    by_cases hb : buf = []
    · subst hb
      simp [SSTableWriter.buildLoop, chunkAux, SSTableWriter.idxOf]
    · simp only [SSTableWriter.buildLoop, List.map_nil, chunkAux,
        if_neg hb, from_entries_ok c buf hb hbuf]
      simp [SSTableWriter.idxOf]
  | cons p rest ih =>
    intro buf blocks index offset total hbuf hitems
    have he : (SSTableWriter.mkEntry p).InRange :=
      hitems p (List.mem_cons_self ..)
    have hbuf' : ∀ e ∈ buf ++ [SSTableWriter.mkEntry p], e.InRange := by
      intro e hme
      rcases List.mem_append.mp hme with h | h
      · exact hbuf e h
      · rw [List.mem_singleton.mp h]
        exact he
    have hrest : ∀ q ∈ rest, (SSTableWriter.mkEntry q).InRange :=
      fun q hq => hitems q (List.mem_cons_of_mem p hq)
    simp only [SSTableWriter.buildLoop, List.map_cons, chunkAux]
    by_cases hth : SSTableWriter.BLOCK_SIZE ≤
        SSTableWriter.entriesSize buf + (SSTableWriter.mkEntry p).bytes_size
    · rw [if_pos hth, if_pos hth]
      simp only [from_entries_ok c (buf ++ [SSTableWriter.mkEntry p])
        (by simp) hbuf']
      have hstep := ih [] (blocks ++ [SSTableWriter.blockOf c
          (buf ++ [SSTableWriter.mkEntry p])])
        (index ++ [⟨(((buf ++ [SSTableWriter.mkEntry p]).headD
            default).key), offset⟩])
        (offset + (SSTableWriter.blockOf c
          (buf ++ [SSTableWriter.mkEntry p])).size)
        (total + (buf ++ [SSTableWriter.mkEntry p]).length)
        (by intro e h; simp at h) hrest
      rw [entriesSize_nil] at hstep
      rw [hstep]
      simp only [SSTableWriter.idxOf, List.map_cons, List.append_assoc,
        List.singleton_append, List.length_append, List.length_singleton,
        List.length_cons, List.length_nil, Prod.mk.injEq, Except.ok.injEq]
      refine ⟨trivial, trivial, ?_⟩
      try simp only [List.length_nil]
      omega
    · rw [if_neg hth, if_neg hth]
      have hstep := ih (buf ++ [SSTableWriter.mkEntry p]) blocks index
        offset total hbuf' hrest
      rw [entriesSize_append_singleton] at hstep
      rw [hstep]
      simp only [List.length_append, List.length_singleton,
        List.length_cons, Prod.mk.injEq, Except.ok.injEq]
      refine ⟨trivial, trivial, ?_⟩
      try simp only [List.length_nil]
      omega

/-- C4.  For every sorted store (strictly ascending keys, entries in
packing range) and lossless codec, `_build_blocks_and_index`
partitions the entries, in order, into exactly the greedy groups of
`chunkGreedy` (accumulate until the uncompressed size reaches the
4 KiB threshold; final partial group flushed unconditionally), emits
one block per group (iterating the blocks in file order recovers the
groups, whose concatenation is the original entry sequence), records
exactly one sparse-index entry per block whose key is the block's
first key and whose offset is the block's absolute byte position in
the file (17-byte header plus the serialized sizes of the preceding
blocks), and consequently the keys read back across all blocks are
strictly ascending and pairwise distinct. -/
theorem sstable_build_partitions (c : Codec) (hc : c.Lossless)
    (cs : ChecksumFn) (items : List (List Nat × MemtableEntry))
    (hsorted : items.Pairwise (fun a b => keyLt a.1 b.1 = true))
    (hval : ∀ p ∈ items, (SSTableWriter.mkEntry p).InRange) :
    ∃ blocks idx,
      SSTableWriter.build_blocks_and_index c items
          = .ok (blocks, idx, items.length)
      ∧ blocks.mapM (Block.iter_entries c)
          = .ok (chunkGreedy SSTableWriter.BLOCK_SIZE
              (items.map SSTableWriter.mkEntry))
      ∧ (chunkGreedy SSTableWriter.BLOCK_SIZE
            (items.map SSTableWriter.mkEntry)).flatten
          = items.map SSTableWriter.mkEntry
      ∧ (∀ g ∈ chunkGreedy SSTableWriter.BLOCK_SIZE
            (items.map SSTableWriter.mkEntry), g ≠ [])
      ∧ idx.length = blocks.length
      ∧ (∀ i, i < idx.length →
          (idx.getD i default).key
              = (((chunkGreedy SSTableWriter.BLOCK_SIZE
                  (items.map SSTableWriter.mkEntry)).getD i []).headD
                  default).key
          ∧ (idx.getD i default).offset
              = 17 + ((blocks.take i).map
                  (fun b => (Block.to_bytes cs b).length)).sum)
      ∧ ((items.map SSTableWriter.mkEntry).map (fun e => e.key)).Pairwise
          (fun a b => keyLt a b = true)
      ∧ ((items.map SSTableWriter.mkEntry).map (fun e => e.key)).Nodup := by
  have hflat : (chunkGreedy SSTableWriter.BLOCK_SIZE
      (items.map SSTableWriter.mkEntry)).flatten
      = items.map SSTableWriter.mkEntry := by
    unfold chunkGreedy
    simpa using chunkAux_flatten SSTableWriter.BLOCK_SIZE
      (items.map SSTableWriter.mkEntry) [] 0
  have hvalE : ∀ e ∈ items.map SSTableWriter.mkEntry, e.InRange := by
    intro e he
    obtain ⟨p, hp, rfl⟩ := List.mem_map.mp he
    exact hval p hp
  have hgval : ∀ g ∈ chunkGreedy SSTableWriter.BLOCK_SIZE
      (items.map SSTableWriter.mkEntry), ∀ e ∈ g, e.InRange := by
    intro g hg e he
    exact hvalE e (hflat ▸ List.mem_flatten.mpr ⟨g, hg, he⟩)
  have hkeys : ((items.map SSTableWriter.mkEntry).map
      (fun e => e.key)).Pairwise (fun a b => keyLt a b = true) := by
    rw [List.map_map, List.pairwise_map]
    exact hsorted
  have hspec := buildLoop_spec c items [] [] [] 17 0 (by simp) hval
  rw [entriesSize_nil] at hspec
  refine ⟨(chunkGreedy SSTableWriter.BLOCK_SIZE
      (items.map SSTableWriter.mkEntry)).map (SSTableWriter.blockOf c),
    SSTableWriter.idxOf c (chunkGreedy SSTableWriter.BLOCK_SIZE
      (items.map SSTableWriter.mkEntry)) 17,
    ?_, ?_, hflat, ?_, ?_, ?_, hkeys, ?_⟩
  · unfold SSTableWriter.build_blocks_and_index chunkGreedy
    simpa using hspec
  · exact mapM_iter_entries c hc _ hgval
  · exact fun g hg => chunkAux_groups_ne_nil _ _ [] 0 g hg
  · rw [idxOf_length, List.length_map]
  · intro i hi
    rw [idxOf_length] at hi
    rw [idxOf_getD c _ 17 i hi]
    refine ⟨rfl, ?_⟩
    simp only [List.map_take, List.map_map, block_to_bytes_length]
    rfl
  · exact hkeys.imp (fun h => keyLt_ne h)

/-- C4 witness: a concrete two-item sorted store. -/
theorem sstable_build_partitions_witness :
    ∃ blocks idx,
      SSTableWriter.build_blocks_and_index idCodec demoItems
          = .ok (blocks, idx, demoItems.length)
      ∧ blocks.mapM (Block.iter_entries idCodec)
          = .ok (chunkGreedy SSTableWriter.BLOCK_SIZE
              (demoItems.map SSTableWriter.mkEntry))
      ∧ (chunkGreedy SSTableWriter.BLOCK_SIZE
            (demoItems.map SSTableWriter.mkEntry)).flatten
          = demoItems.map SSTableWriter.mkEntry
      ∧ (∀ g ∈ chunkGreedy SSTableWriter.BLOCK_SIZE
            (demoItems.map SSTableWriter.mkEntry), g ≠ [])
      ∧ idx.length = blocks.length
      ∧ (∀ i, i < idx.length →
          (idx.getD i default).key
              = (((chunkGreedy SSTableWriter.BLOCK_SIZE
                  (demoItems.map SSTableWriter.mkEntry)).getD i []).headD
                  default).key
          ∧ (idx.getD i default).offset
              = 17 + ((blocks.take i).map
                  (fun b => (Block.to_bytes demoChecksum b).length)).sum)
      ∧ ((demoItems.map SSTableWriter.mkEntry).map
          (fun e => e.key)).Pairwise (fun a b => keyLt a b = true)
      ∧ ((demoItems.map SSTableWriter.mkEntry).map
          (fun e => e.key)).Nodup :=
  sstable_build_partitions idCodec (fun _ => rfl) demoChecksum demoItems
    (by decide) (by decide)

end SegmentDB
